import Mathlib

/-!
The tldr-bot chunk-and-summarize pipeline.

A shallow embedding of `src/chunkutils.js` (`chunkMessages`) and of the
summarization part of `src/index.js` (`summarizeChunk`,
`summarizeChunkSummaries`, `replyToContext`, `handleSummarize`), followed by
the properties proved about them.

JavaScript strings are modelled by `String`; `msg.length` is the number of
UTF-16 code units (`jsLength`).  JavaScript arrays are modelled by `List`,
`push` appending at the end.
-/

namespace TldrBot

/-! ## chunkutils.js -/

/-- Number of UTF-16 code units taken by one code point. -/
def utf16Units (c : Char) : Nat :=
  if c.toNat < 65536 then 1 else 2

/-- The JavaScript `length` of a string: its number of UTF-16 code units. -/
def jsLength (s : String) : Nat :=
  (s.data.map utf16Units).sum

/-- The constant `MAX_CHARS_PER_CHUNK` of chunkutils.js, line 5. -/
def MAX_CHARS_PER_CHUNK : Nat := 6000

/-- The three local variables of `chunkMessages`: `chunks`, `currentChunk`
and `currentLength`. -/
structure ChunkState where
  chunks : List (List String)
  currentChunk : List String
  currentLength : Nat
deriving DecidableEq, Repr

/-- One iteration of the `for (const msg of messages)` loop, lines 12-22. -/
def chunkStep (st : ChunkState) (msg : String) : ChunkState :=
  let msgLength := jsLength msg + 1
  if st.currentLength + msgLength > MAX_CHARS_PER_CHUNK then
    ⟨st.chunks ++ [st.currentChunk], [msg], msgLength⟩
  else
    ⟨st.chunks, st.currentChunk ++ [msg], st.currentLength + msgLength⟩

/-- The code after the loop, lines 24-29: push the last chunk when it is not
empty, and return `chunks`. -/
def chunkFinish (st : ChunkState) : List (List String) :=
  if st.currentChunk.length > 0 then st.chunks ++ [st.currentChunk] else st.chunks

/-- The function `chunkMessages` of chunkutils.js, lines 7-30. -/
def chunkMessages (messages : List String) : List (List String) :=
  chunkFinish (messages.foldl chunkStep ⟨[], [], 0⟩)

/-- Size of one line as the chunker counts it: `msg.length + 1`. -/
def lineSize (msg : String) : Nat := jsLength msg + 1

/-- Total serialized size of a chunk: the sum over its lines of length + 1. -/
def chunkSize (chunk : List String) : Nat :=
  (chunk.map lineSize).sum

/-- The loop started from `st`, followed by the final push. -/
def chunkRun (st : ChunkState) (messages : List String) : List (List String) :=
  chunkFinish (messages.foldl chunkStep st)

/-- A line of 6000 letters: its size, 6001, exceeds the budget. -/
def longLine : String := String.mk (List.replicate 6000 'a')

/-! ## Loop invariants of `chunkMessages` -/

/-- The counter `currentLength` is the serialized size of `currentChunk`. -/
def LengthInv (st : ChunkState) : Prop :=
  st.currentLength = chunkSize st.currentChunk

/-- A chunk within the budget, or a single line that alone exceeds it. -/
def WithinBudget (c : List String) : Prop :=
  chunkSize c ≤ MAX_CHARS_PER_CHUNK ∨ ∃ l, c = [l] ∧ MAX_CHARS_PER_CHUNK < lineSize l

/-- Loop invariant for the budget property. -/
def BudgetInv (st : ChunkState) : Prop :=
  (∀ c ∈ st.chunks, WithinBudget c) ∧ LengthInv st ∧ WithinBudget st.currentChunk

/-- The line that opens the next chunk does not fit at the end of this one. -/
def NextDoesNotFit (c d : List String) : Prop :=
  ∃ m rest, d = m :: rest ∧ MAX_CHARS_PER_CHUNK < chunkSize c + lineSize m

/-- The chunk `c` is the longest prefix of `remaining` that fits the budget: it
is the first `c.length` lines of `remaining`, its serialized size is at most
`MAX_CHARS_PER_CHUNK`, and every longer prefix of `remaining` exceeds
`MAX_CHARS_PER_CHUNK`. -/
def LongestFitting (c remaining : List String) : Prop :=
  c = remaining.take c.length ∧ chunkSize c ≤ MAX_CHARS_PER_CHUNK ∧
    ∀ k, c.length < k → k ≤ remaining.length →
      MAX_CHARS_PER_CHUNK < chunkSize (remaining.take k)

/-- Loop invariant for the greedy property. -/
def GreedyInv (st : ChunkState) : Prop :=
  List.Chain' NextDoesNotFit (st.chunks ++ [st.currentChunk]) ∧ LengthInv st

/-! ## index.js

The completion service (`openai.chat.completions.create`) and the Discord
transport (`editReply`, `followUp`, `channel.send`) are external: they are
fields of an environment `Env σ` acting on an arbitrary external state `σ`, and
each may throw.  A thrown value is modelled by its detail text.  The `await`s of
`handleSummarize` are sequential, so the functions pass a `World` along: the
external state and the trace of calls made so far, oldest first. -/

/-- A thrown JavaScript value, by its detail text. -/
abbrev Err := String

/-- The calls recorded in the trace. -/
inductive Event where
  /-- Entry into `summarizeChunk(chunk)`. -/
  | summarizeChunk (chunk : List String)
  /-- Entry into `summarizeChunkSummaries(chunkSummaries)`. -/
  | summarizeChunkSummaries (chunkSummaries : List String)
  /-- A request `openai.chat.completions.create` with its model, system content
  and user content, and the detail of what it threw, if it threw. -/
  | completion (model systemContent userContent : String) (thrown : Option Err)
  /-- A call `context.editReply(text)`. -/
  | editReply (text : String)
  /-- A call `context.followUp(text)`. -/
  | followUp (text : String)
  /-- A call `context.channel.send(text)`. -/
  | channelSend (text : String)
  /-- A call `console.error("Error handling summarize:", error)`. -/
  | consoleError (error : Err)
deriving DecidableEq, Repr

/-- The external collaborators of index.js. `create` gives
`completion.choices[0].message.content`, or throws. -/
structure Env (σ : Type) where
  isChatInputCommand : Bool
  create : String → String → String → σ → Except Err String × σ
  editReply : String → σ → Except Err Unit × σ
  followUp : String → σ → Except Err Unit × σ
  channelSend : String → σ → Except Err Unit × σ

/-- External state and trace of the calls made so far. -/
structure World (σ : Type) where
  ext : σ
  trace : List Event

/-- Append one event to the trace. -/
def World.log {σ : Type} (w : World σ) (e : Event) : World σ :=
  ⟨w.ext, w.trace ++ [e]⟩

/-- ECMAScript `WhiteSpace` and `LineTerminator` code points, the ones
`String.prototype.trim` removes. -/
def isJsWhiteSpace (c : Char) : Bool :=
  c.toNat == 9 || c.toNat == 10 || c.toNat == 11 || c.toNat == 12 || c.toNat == 13 ||
  c.toNat == 32 || c.toNat == 160 || c.toNat == 5760 ||
  (8192 ≤ c.toNat && c.toNat ≤ 8202) ||
  c.toNat == 8232 || c.toNat == 8233 || c.toNat == 8239 || c.toNat == 8287 ||
  c.toNat == 12288 || c.toNat == 65279

/-- The method `String.prototype.trim`. -/
def jsTrim (s : String) : String :=
  String.mk ((s.data.dropWhile isJsWhiteSpace).reverse.dropWhile isJsWhiteSpace).reverse

/-- The system message of both completion requests, index.js lines 43-44 and
72-73. -/
def systemContent : String :=
  "You are a helpful summarizer for a discord server. Your role is to give a TLDR of conversations"

/-- The template literal of `summarizeChunk`, index.js lines 31-36. -/
def chunkPrompt (chunk : List String) : String :=
  "\nSummarize the following messages into bullet points (and short paragraphs if needed). Try not to make the summary or bullet points longer than the messages themselves. Reading the summary should be quicker than reading the messages themselves.\nIf possible, group the points by the users that made them.:\n\n"
    ++ "\n".intercalate chunk ++ "\n  "

/-- One completion request, as both summarizers issue it: record it, call the
service, and return the trimmed content or rethrow. -/
def requestCompletion {σ : Type} (env : Env σ) (prompt : String) (w : World σ) :
    Except Err String × World σ :=
  match env.create "gpt-4o" systemContent prompt w.ext with
  | (.ok content, s) =>
    (.ok (jsTrim content), ⟨s, w.trace ++ [.completion "gpt-4o" systemContent prompt none]⟩)
  | (.error e, s) =>
    (.error e, ⟨s, w.trace ++ [.completion "gpt-4o" systemContent prompt (some e)]⟩)

/-- The function `summarizeChunk` of index.js, lines 30-51. -/
def summarizeChunk {σ : Type} (env : Env σ) (chunk : List String) (w : World σ) :
    Except Err String × World σ :=
  requestCompletion env (chunkPrompt chunk) (w.log (.summarizeChunk chunk))

/-- The value `combinedText` of `summarizeChunkSummaries`, index.js lines 57-59:
`chunkSummaries.map((summary, i) => ...).join("\n\n")`. -/
def combinedText (chunkSummaries : List String) : String :=
  "\n\n".intercalate
    (chunkSummaries.mapIdx fun i summary => "Chunk " ++ toString (i + 1) ++ " summary:\n" ++ summary)

/-- The text before `combinedText` in the template literal of
`summarizeChunkSummaries`, index.js lines 61-63. -/
def aggregateHeader : String :=
  "\nWe have multiple chunk summaries. Combine them into one cohesive summary with bullet points. The chunks are chat messages that are potentially grouped by users. Combine each users\x27 point to maintain that grouping.\n\n"

/-- The template literal of `summarizeChunkSummaries`, index.js lines 61-65. -/
def aggregatePrompt (chunkSummaries : List String) : String :=
  aggregateHeader ++ combinedText chunkSummaries ++ "\n  "

/-- The function `summarizeChunkSummaries` of index.js, lines 56-80. -/
def summarizeChunkSummaries {σ : Type} (env : Env σ) (chunkSummaries : List String)
    (w : World σ) : Except Err String × World σ :=
  requestCompletion env (aggregatePrompt chunkSummaries)
    (w.log (.summarizeChunkSummaries chunkSummaries))

/-- The function `replyToContext` of index.js, lines 87-101. -/
def replyToContext {σ : Type} (env : Env σ) (text : String) (w : World σ) :
    Except Err Unit × World σ :=
  if env.isChatInputCommand then
    match env.editReply text w.ext with
    | (.ok _, s) => (.ok (), ⟨s, w.trace ++ [.editReply text]⟩)
    | (.error _, s) =>
      match env.followUp text s with
      | (r, s2) => (r, ⟨s2, w.trace ++ [.editReply text, .followUp text]⟩)
  else
    match env.channelSend text w.ext with
    | (r, s) => (r, ⟨s, w.trace ++ [.channelSend text]⟩)

/-- Step 7 of `handleSummarize`, index.js lines 145-149: the loop over the
chunks, `chunkSummaries` being the array filled so far. A throw ends the loop. -/
def summarizeEach {σ : Type} (env : Env σ) :
    List (List String) → List String → World σ → Except Err (List String) × World σ
  | [], chunkSummaries, w => (.ok chunkSummaries, w)
  | c :: cs, chunkSummaries, w =>
    match summarizeChunk env c w with
    | (.ok summary, w1) => summarizeEach env cs (chunkSummaries ++ [summary]) w1
    | (.error e, w1) => (.error e, w1)

/-- Step 8 of `handleSummarize`, index.js lines 152-157. -/
def finalSummary {σ : Type} (env : Env σ) (chunkSummaries : List String) (w : World σ) :
    Except Err String × World σ :=
  if h : chunkSummaries.length = 1 then
    (.ok chunkSummaries[0], w)
  else
    summarizeChunkSummaries env chunkSummaries w

/-- The text of index.js line 163. -/
def errorReply : String := "Sorry, I ran into an error."

/-- Steps 6 to 9 inside the `try` of `handleSummarize`, index.js lines 141-160. -/
def summarizeAndReply {σ : Type} (env : Env σ) (lines : List String) (w : World σ) :
    Except Err Unit × World σ :=
  match summarizeEach env (chunkMessages lines) [] w with
  | (.error e, w1) => (.error e, w1)
  | (.ok chunkSummaries, w1) =>
    match finalSummary env chunkSummaries w1 with
    | (.error e, w2) => (.error e, w2)
    | (.ok text, w2) => replyToContext env text w2

/-- The `catch` handler of `handleSummarize`, index.js lines 161-164, applied to
the outcome of the `try` block. -/
def catchReport {σ : Type} (env : Env σ) (r : Except Err Unit × World σ) :
    Except Err Unit × World σ :=
  match r with
  | (.ok _, w3) => (.ok (), w3)
  | (.error e, w3) => replyToContext env errorReply (w3.log (.consoleError e))

/-- The function `handleSummarize` of index.js, lines 111-165, from the point
where `lines` is known: steps 6 to 9 and the `catch` handler. Steps 1 to 5, which
read the channel and build `lines`, are not part of this definition. -/
def handleSummarize {σ : Type} (env : Env σ) (lines : List String) (w : World σ) :
    Except Err Unit × World σ :=
  catchReport env (summarizeAndReply env lines w)

/-! ## Reading a trace -/

/-- The text an event hands to the reply sink, if it is a delivery. -/
def Event.deliveredText : Event → Option String
  | .editReply t => some t
  | .followUp t => some t
  | .channelSend t => some t
  | _ => none

/-- Texts handed to the reply sink, in order. -/
def delivered (t : List Event) : List String := t.filterMap Event.deliveredText

/-- Whether an event is a call of one of the two summarizers. -/
def Event.isSummarizerCall : Event → Bool
  | .summarizeChunk _ => true
  | .summarizeChunkSummaries _ => true
  | _ => false

/-- Calls of `summarizeChunk` and `summarizeChunkSummaries`, in order. -/
def summarizerCalls (t : List Event) : List Event := t.filter Event.isSummarizerCall

/-- The argument of a call of `summarizeChunk`. -/
def Event.chunkArg : Event → Option (List String)
  | .summarizeChunk c => some c
  | _ => none

/-- Arguments of the calls of `summarizeChunk`, in order. -/
def chunkCalls (t : List Event) : List (List String) := t.filterMap Event.chunkArg

/-- The argument of a call of `summarizeChunkSummaries`. -/
def Event.aggregateArg : Event → Option (List String)
  | .summarizeChunkSummaries ss => some ss
  | _ => none

/-- Arguments of the calls of `summarizeChunkSummaries`, in order. -/
def aggregateCalls (t : List Event) : List (List String) := t.filterMap Event.aggregateArg

/-- The detail thrown by a completion request that failed. -/
def Event.thrownDetail : Event → Option Err
  | .completion _ _ _ (some e) => some e
  | _ => none

/-- Details thrown by the completion requests that failed, in order. -/
def failedCompletions (t : List Event) : List Err := t.filterMap Event.thrownDetail

/-- The chunk summaries of a run in which every call of `summarizeChunk`
returns: `SummariesOf env chunks w sums w1` says that calling `summarizeChunk` on
the chunks one after the other from world `w` returns the values `sums`, in that
order, and ends in world `w1`. -/
inductive SummariesOf {σ : Type} (env : Env σ) :
    List (List String) → World σ → List String → World σ → Prop where
  | nil (w : World σ) : SummariesOf env [] w [] w
  | cons (c : List String) (cs : List (List String)) (w w1 w2 : World σ) (s : String)
      (ss : List String) (h1 : summarizeChunk env c w = (.ok s, w1))
      (h2 : SummariesOf env cs w1 ss w2) : SummariesOf env (c :: cs) w (s :: ss) w2

/-- What a summarizer call threw, if it threw. -/
def thrownOf : Except Err String → Option Err
  | .ok _ => none
  | .error e => some e

/-- The aggregate text as the specification words it: for i = 1..n the label
"Chunk i summary:" and a line break followed by the i-th summary, joined by
blank lines. -/
def labelledSummaries (summaries : List String) : String :=
  "\n\n".intercalate
    ((List.range summaries.length).map fun k =>
      "Chunk " ++ toString (k + 1) ++ " summary:\n" ++ summaries.getD k "")

/-- A service that answers every request with `answer` and a transport that
never fails; the external state counts the requests. -/
def constEnv (answer : String) : Env Nat :=
  ⟨false, fun _ _ _ n => (.ok answer, n + 1), fun _ n => (.ok (), n),
    fun _ n => (.ok (), n), fun _ n => (.ok (), n)⟩

/-- A service that fails with `detail` from request number `k` on (counting from
0) and answers `answer` before. -/
def failingEnv (k : Nat) (answer detail : String) : Env Nat :=
  ⟨true, fun _ _ _ n => (if n < k then .ok answer else .error detail, n + 1),
    fun _ n => (.ok (), n), fun _ n => (.ok (), n), fun _ n => (.ok (), n)⟩

/-- The world after the two chunk summaries of the run of `constEnv "S"` on the
single line `longLine`, whose chunks are `[[], [longLine]]`. -/
def pipelineWorld1 : World Nat :=
  (summarizeEach (constEnv "S") [[], [longLine]] [] ⟨0, []⟩).2

/-- The world of that run after the aggregate summary. -/
def pipelineWorld2 : World Nat :=
  (summarizeChunkSummaries (constEnv "S") ["S", "S"] pipelineWorld1).2

/-! ## Lemmas on the chunking loop -/


theorem chunkMessages_eq_run (messages : List String) :
    chunkMessages messages = chunkRun ⟨[], [], 0⟩ messages := rfl

theorem chunkRun_nil (st : ChunkState) : chunkRun st [] = chunkFinish st := rfl

theorem chunkRun_cons (st : ChunkState) (m : String) (ms : List String) :
    chunkRun st (m :: ms) = chunkRun (chunkStep st m) ms := rfl

theorem chunkRun_append (st : ChunkState) (xs ys : List String) :
    chunkRun st (xs ++ ys) = chunkRun (xs.foldl chunkStep st) ys := by
  simp [chunkRun, List.foldl_append]

theorem chunkStep_close (st : ChunkState) (m : String)
    (h : st.currentLength + lineSize m > MAX_CHARS_PER_CHUNK) :
    chunkStep st m = ⟨st.chunks ++ [st.currentChunk], [m], lineSize m⟩ := by
  unfold lineSize at h
  simp [chunkStep, lineSize, h]

theorem chunkStep_keep (st : ChunkState) (m : String)
    (h : ¬ st.currentLength + lineSize m > MAX_CHARS_PER_CHUNK) :
    chunkStep st m
      = ⟨st.chunks, st.currentChunk ++ [m], st.currentLength + lineSize m⟩ := by
  unfold lineSize at h
  simp only [chunkStep, lineSize]
  rw [if_neg h]

theorem chunkFinish_flatten (st : ChunkState) :
    (chunkFinish st).flatten = st.chunks.flatten ++ st.currentChunk := by
  unfold chunkFinish
  split
  · simp
  · rename_i h
    have h0 : st.currentChunk = [] := by
      cases hc : st.currentChunk with
      | nil => rfl
      | cons a t => simp [hc] at h
    simp [h0]

theorem chunkStep_flatten (st : ChunkState) (m : String) :
    (chunkStep st m).chunks.flatten ++ (chunkStep st m).currentChunk
      = st.chunks.flatten ++ st.currentChunk ++ [m] := by
  by_cases h : st.currentLength + lineSize m > MAX_CHARS_PER_CHUNK
  · rw [chunkStep_close st m h]; simp
  · rw [chunkStep_keep st m h]; simp

theorem foldl_chunkStep_flatten (msgs : List String) (st : ChunkState) :
    (msgs.foldl chunkStep st).chunks.flatten ++ (msgs.foldl chunkStep st).currentChunk
      = st.chunks.flatten ++ st.currentChunk ++ msgs := by
  induction msgs generalizing st with
  | nil => simp
  | cons m ms ih =>
    rw [List.foldl_cons, ih, chunkStep_flatten]
    simp

theorem chunkRun_flatten (st : ChunkState) (msgs : List String) :
    (chunkRun st msgs).flatten = st.chunks.flatten ++ st.currentChunk ++ msgs := by
  unfold chunkRun
  rw [chunkFinish_flatten, foldl_chunkStep_flatten]

/-- Every chunk pushed so far moves unchanged to the front of the result. -/
theorem chunkRun_chunks (msgs : List String) (st : ChunkState) :
    chunkRun st msgs
      = st.chunks ++ chunkRun ⟨[], st.currentChunk, st.currentLength⟩ msgs := by
  induction msgs generalizing st with
  | nil =>
    simp only [chunkRun_nil, chunkFinish]
    split <;> simp
  | cons m ms ih =>
    rw [chunkRun_cons, chunkRun_cons, ih (chunkStep st m),
      ih (chunkStep ⟨[], st.currentChunk, st.currentLength⟩ m)]
    by_cases h : st.currentLength + lineSize m > MAX_CHARS_PER_CHUNK
    · rw [chunkStep_close st m h, chunkStep_close ⟨[], st.currentChunk, st.currentLength⟩ m h]
      simp
    · rw [chunkStep_keep st m h, chunkStep_keep ⟨[], st.currentChunk, st.currentLength⟩ m h]
      simp

theorem lengthInv_step (st : ChunkState) (m : String) (h : LengthInv st) :
    LengthInv (chunkStep st m) := by
  unfold LengthInv at *
  by_cases hc : st.currentLength + lineSize m > MAX_CHARS_PER_CHUNK
  · rw [chunkStep_close st m hc]; simp [chunkSize]
  · rw [chunkStep_keep st m hc]; simp [chunkSize, h]

theorem lengthInv_foldl (msgs : List String) (st : ChunkState) (h : LengthInv st) :
    LengthInv (msgs.foldl chunkStep st) := by
  induction msgs generalizing st with
  | nil => simpa using h
  | cons m ms ih => exact ih _ (lengthInv_step st m h)

theorem budgetInv_step (st : ChunkState) (m : String) (h : BudgetInv st) :
    BudgetInv (chunkStep st m) := by
  obtain ⟨h1, h2, h3⟩ := h
  refine ⟨?_, lengthInv_step st m h2, ?_⟩
  · by_cases hc : st.currentLength + lineSize m > MAX_CHARS_PER_CHUNK
    · rw [chunkStep_close st m hc]
      intro c hmem
      simp only [List.mem_append, List.mem_singleton] at hmem
      rcases hmem with hmem | hmem
      · exact h1 c hmem
      · rw [hmem]; exact h3
    · rw [chunkStep_keep st m hc]; exact h1
  · by_cases hc : st.currentLength + lineSize m > MAX_CHARS_PER_CHUNK
    · rw [chunkStep_close st m hc]
      by_cases hm : lineSize m ≤ MAX_CHARS_PER_CHUNK
      · left; simpa [chunkSize] using hm
      · right; exact ⟨m, rfl, by omega⟩
    · rw [chunkStep_keep st m hc]
      left
      unfold LengthInv at h2
      simp only [chunkSize, List.map_append, List.sum_append, List.map_cons, List.map_nil,
        List.sum_cons, List.sum_nil] at *
      omega

theorem budgetInv_foldl (msgs : List String) (st : ChunkState) (h : BudgetInv st) :
    BudgetInv (msgs.foldl chunkStep st) := by
  induction msgs generalizing st with
  | nil => simpa using h
  | cons m ms ih => exact ih _ (budgetInv_step st m h)

theorem mem_chunkFinish (st : ChunkState) (c : List String) (h : c ∈ chunkFinish st) :
    c ∈ st.chunks ∨ c = st.currentChunk := by
  unfold chunkFinish at h
  split at h
  · simpa using h
  · exact Or.inl h

theorem nextDoesNotFit_append (c d : List String) (m : String) (h : NextDoesNotFit c d) :
    NextDoesNotFit c (d ++ [m]) := by
  obtain ⟨x, rest, hd, hlt⟩ := h
  exact ⟨x, rest ++ [m], by simp [hd], hlt⟩

theorem greedyInv_step (st : ChunkState) (m : String) (h : GreedyInv st) :
    GreedyInv (chunkStep st m) := by
  obtain ⟨h1, h2⟩ := h
  refine ⟨?_, lengthInv_step st m h2⟩
  by_cases hc : st.currentLength + lineSize m > MAX_CHARS_PER_CHUNK
  · rw [chunkStep_close st m hc]
    refine List.Chain'.append h1 (List.chain'_singleton _) ?_
    intro x hx y hy
    simp only [List.getLast?_append, List.getLast?_singleton, Option.or,
      Option.mem_def, Option.some.injEq] at hx
    simp only [List.head?_cons, Option.mem_def, Option.some.injEq] at hy
    subst hx; subst hy
    unfold LengthInv at h2
    exact ⟨m, [], rfl, by omega⟩
  · rw [chunkStep_keep st m hc]
    rw [List.chain'_append] at h1 ⊢
    obtain ⟨ha, _, hc3⟩ := h1
    refine ⟨ha, List.chain'_singleton _, ?_⟩
    intro x hx y hy
    simp only [List.head?_cons, Option.mem_def, Option.some.injEq] at hy
    subst hy
    exact nextDoesNotFit_append x _ m (hc3 x hx st.currentChunk (by simp))

theorem greedyInv_foldl (msgs : List String) (st : ChunkState) (h : GreedyInv st) :
    GreedyInv (msgs.foldl chunkStep st) := by
  induction msgs generalizing st with
  | nil => simpa using h
  | cons m ms ih => exact ih _ (greedyInv_step st m h)

theorem chunkMessages_chain (lines : List String) :
    List.Chain' NextDoesNotFit (chunkMessages lines) := by
  have h : GreedyInv (lines.foldl chunkStep ⟨[], [], 0⟩) :=
    greedyInv_foldl lines _ ⟨by simp, by simp [LengthInv, chunkSize]⟩
  unfold chunkMessages chunkFinish
  split
  · exact h.1
  · exact (List.chain'_append.mp h.1).1

/-- After an oversized line has opened a chunk, that chunk is closed with the
line alone in it. -/
theorem chunkRun_oversized (m : String) (rest : List String)
    (h : MAX_CHARS_PER_CHUNK < lineSize m) :
    ∃ post, chunkRun ⟨[], [m], lineSize m⟩ rest = [m] :: post ∧ post.flatten = rest := by
  cases rest with
  | nil => exact ⟨[], by simp [chunkRun, chunkFinish], rfl⟩
  | cons b bs =>
    refine ⟨chunkRun ⟨[], [b], lineSize b⟩ bs, ?_, ?_⟩
    · rw [chunkRun_cons, chunkStep_close _ b (by simp only; omega), chunkRun_chunks]
      simp
    · rw [chunkRun_flatten]; simp

/-- A single oversized line gives an empty chunk followed by the line. -/
theorem chunkMessages_single_oversized (m : String)
    (h : MAX_CHARS_PER_CHUNK < lineSize m) :
    chunkMessages [m] = [[], [m]] := by
  rw [chunkMessages_eq_run, chunkRun_cons, chunkStep_close _ m (by simp only; omega)]
  simp [chunkRun, chunkFinish]

theorem lineSize_longLine : lineSize longLine = 6001 := by
  have h1 : utf16Units 'a' = 1 := by decide
  simp only [lineSize, jsLength, longLine, List.map_replicate, List.sum_replicate, h1,
    smul_eq_mul]

theorem chunkMessages_flatten (lines : List String) :
    (chunkMessages lines).flatten = lines := by
  rw [chunkMessages_eq_run, chunkRun_flatten]
  simp

theorem chunkMessages_withinBudget (lines : List String) (c : List String)
    (hc : c ∈ chunkMessages lines) : WithinBudget c := by
  have h : BudgetInv (lines.foldl chunkStep ⟨[], [], 0⟩) :=
    budgetInv_foldl lines _
      ⟨by simp, by simp [LengthInv, chunkSize], Or.inl (by simp [chunkSize])⟩
  rcases mem_chunkFinish _ c hc with h1 | h1
  · exact h.1 c h1
  · rw [h1]; exact h.2.2

theorem chunkSize_append (a b : List String) :
    chunkSize (a ++ b) = chunkSize a + chunkSize b := by
  simp [chunkSize]

theorem chunkSize_cons (m : String) (b : List String) :
    chunkSize (m :: b) = lineSize m + chunkSize b := by
  simp [chunkSize]

/-- Two short lines followed by an oversized one: the short lines share a
chunk, the oversized line has its own. -/
theorem chunkMessages_short_short_long :
    chunkMessages ["a", "b", longLine] = [["a", "b"], [longLine]] := by
  have hfold : (["a", "b"] : List String).foldl chunkStep ⟨[], [], 0⟩
      = ⟨[], ["a", "b"], 4⟩ := by decide
  have hsplit : (["a", "b", longLine] : List String) = ["a", "b"] ++ [longLine] := rfl
  rw [chunkMessages_eq_run, hsplit, chunkRun_append, hfold, chunkRun_cons,
    chunkStep_close _ longLine (by rw [lineSize_longLine]; decide)]
  simp [chunkRun, chunkFinish]

/-! ## Lemmas on traces -/

@[simp]
theorem delivered_append (a b : List Event) :
    delivered (a ++ b) = delivered a ++ delivered b := by
  simp [delivered]

@[simp]
theorem summarizerCalls_append (a b : List Event) :
    summarizerCalls (a ++ b) = summarizerCalls a ++ summarizerCalls b := by
  simp [summarizerCalls]

@[simp]
theorem chunkCalls_append (a b : List Event) :
    chunkCalls (a ++ b) = chunkCalls a ++ chunkCalls b := by
  simp [chunkCalls]

@[simp]
theorem aggregateCalls_append (a b : List Event) :
    aggregateCalls (a ++ b) = aggregateCalls a ++ aggregateCalls b := by
  simp [aggregateCalls]

@[simp]
theorem failedCompletions_append (a b : List Event) :
    failedCompletions (a ++ b) = failedCompletions a ++ failedCompletions b := by
  simp [failedCompletions]

theorem requestCompletion_trace {σ : Type} (env : Env σ) (p : String) (w : World σ) :
    (requestCompletion env p w).2.trace
      = w.trace ++ [.completion "gpt-4o" systemContent p
          (thrownOf (requestCompletion env p w).1)] := by
  unfold requestCompletion
  rcases h : env.create "gpt-4o" systemContent p w.ext with ⟨r, s⟩
  cases r <;> simp [thrownOf]

theorem summarizeChunk_trace {σ : Type} (env : Env σ) (c : List String) (w : World σ) :
    (summarizeChunk env c w).2.trace
      = w.trace ++ [.summarizeChunk c, .completion "gpt-4o" systemContent (chunkPrompt c)
          (thrownOf (summarizeChunk env c w).1)] := by
  unfold summarizeChunk
  rw [requestCompletion_trace]
  simp [World.log]

theorem summarizeChunkSummaries_trace {σ : Type} (env : Env σ) (ss : List String)
    (w : World σ) :
    (summarizeChunkSummaries env ss w).2.trace
      = w.trace ++ [.summarizeChunkSummaries ss,
          .completion "gpt-4o" systemContent (aggregatePrompt ss)
            (thrownOf (summarizeChunkSummaries env ss w).1)] := by
  unfold summarizeChunkSummaries
  rw [requestCompletion_trace]
  simp [World.log]

/-- What `replyToContext` adds to the trace: deliveries of `t`, at least one, and
nothing else. -/
theorem replyToContext_events {σ : Type} (env : Env σ) (t : String) (w : World σ) :
    ∃ evs rest, (replyToContext env t w).2.trace = w.trace ++ evs ∧
      delivered evs = t :: rest ∧ (∀ x ∈ rest, x = t) ∧
      summarizerCalls evs = [] ∧ chunkCalls evs = [] ∧ aggregateCalls evs = [] ∧
      failedCompletions evs = [] := by
  unfold replyToContext
  by_cases hc : env.isChatInputCommand = true
  · rw [if_pos hc]
    rcases h : env.editReply t w.ext with ⟨r, s⟩
    cases r with
    | ok u =>
      refine ⟨[.editReply t], [], by simp, ?_⟩
      simp [delivered, summarizerCalls, chunkCalls, aggregateCalls, failedCompletions,
        Event.deliveredText, Event.isSummarizerCall, Event.chunkArg, Event.aggregateArg,
        Event.thrownDetail]
    | error e =>
      refine ⟨[.editReply t, .followUp t], [t], by simp, ?_⟩
      simp [delivered, summarizerCalls, chunkCalls, aggregateCalls, failedCompletions,
        Event.deliveredText, Event.isSummarizerCall, Event.chunkArg, Event.aggregateArg,
        Event.thrownDetail]
  · rw [if_neg hc]
    refine ⟨[.channelSend t], [], by simp, ?_⟩
    simp [delivered, summarizerCalls, chunkCalls, aggregateCalls, failedCompletions,
      Event.deliveredText, Event.isSummarizerCall, Event.chunkArg, Event.aggregateArg,
      Event.thrownDetail]

/-- What the `catch` handler adds to the trace after a throw. -/
theorem catchReport_error_events {σ : Type} (env : Env σ) (e : Err) (w : World σ) :
    ∃ evs rest, (catchReport env (.error e, w)).2.trace = w.trace ++ evs ∧
      delivered evs = errorReply :: rest ∧ (∀ x ∈ rest, x = errorReply) ∧
      summarizerCalls evs = [] ∧ chunkCalls evs = [] ∧ aggregateCalls evs = [] ∧
      failedCompletions evs = [] := by
  obtain ⟨evs, rest, h1, h2, h3, h4, h5, h6, h7⟩ :=
    replyToContext_events env errorReply (w.log (.consoleError e))
  refine ⟨.consoleError e :: evs, rest, ?_, ?_, h3, ?_, ?_, ?_, ?_⟩
  · show (replyToContext env errorReply (w.log (.consoleError e))).2.trace = _
    rw [h1]
    simp [World.log]
  · simpa [delivered, Event.deliveredText] using h2
  · simpa [summarizerCalls, Event.isSummarizerCall] using h4
  · simpa [chunkCalls, Event.chunkArg] using h5
  · simpa [aggregateCalls, Event.aggregateArg] using h6
  · simpa [failedCompletions, Event.thrownDetail] using h7

/-- What step 9 and the `catch` handler add to the trace once the final summary
`t` is known. -/
theorem catchReport_reply_events {σ : Type} (env : Env σ) (t : String) (w : World σ) :
    ∃ evs rest, (catchReport env (replyToContext env t w)).2.trace = w.trace ++ evs ∧
      delivered evs = t :: rest ∧ (∀ x ∈ rest, x = t ∨ x = errorReply) ∧
      summarizerCalls evs = [] ∧ chunkCalls evs = [] ∧ aggregateCalls evs = [] ∧
      failedCompletions evs = [] := by
  obtain ⟨evs, rest, h1, h2, h3, h4, h5, h6, h7⟩ := replyToContext_events env t w
  rcases hr : replyToContext env t w with ⟨r, w3⟩
  rw [hr] at h1
  cases r with
  | ok u =>
    exact ⟨evs, rest, by simpa [catchReport] using h1, h2,
      fun x hx => Or.inl (h3 x hx), h4, h5, h6, h7⟩
  | error e =>
    obtain ⟨evs2, rest2, g1, g2, g3, g4, g5, g6, g7⟩ := catchReport_error_events env e w3
    simp only at h1
    refine ⟨evs ++ evs2, rest ++ errorReply :: rest2, ?_, ?_, ?_, ?_, ?_, ?_, ?_⟩
    · rw [g1, h1, List.append_assoc]
    · simp [h2, g2]
    · intro x hx
      simp only [List.mem_append, List.mem_cons] at hx
      rcases hx with hx | hx | hx
      · exact Or.inl (h3 x hx)
      · exact Or.inr hx
      · exact Or.inr (g3 x hx)
    · simp [h4, g4]
    · simp [h5, g5]
    · simp [h6, g6]
    · simp [h7, g7]

/-- The loop of step 7 computes the summaries of a run in which every call
returns. -/
theorem summariesOf_each {σ : Type} (env : Env σ) (cs : List (List String))
    (w w1 : World σ) (ss : List String) (h : SummariesOf env cs w ss w1)
    (acc : List String) : summarizeEach env cs acc w = (.ok (acc ++ ss), w1) := by
  induction h generalizing acc with
  | nil w => simp [summarizeEach]
  | cons c cs w w1 w2 s ss h1 _ ih =>
    simp only [summarizeEach, h1]
    rw [ih (acc ++ [s])]
    simp

/-- Conversely, when the loop of step 7 ends normally every call returned. -/
theorem summariesOf_of_each {σ : Type} (env : Env σ) (cs : List (List String))
    (w w1 : World σ) (acc out : List String)
    (h : summarizeEach env cs acc w = (.ok out, w1)) :
    ∃ ss, out = acc ++ ss ∧ SummariesOf env cs w ss w1 := by
  induction cs generalizing acc w with
  | nil =>
    simp only [summarizeEach, Prod.mk.injEq, Except.ok.injEq] at h
    exact ⟨[], by simp [h.1], by rw [← h.2]; exact SummariesOf.nil w⟩
  | cons c cs ih =>
    rcases hc : summarizeChunk env c w with ⟨r, w0⟩
    cases r with
    | error e => simp [summarizeEach, hc] at h
    | ok s =>
      simp only [summarizeEach, hc] at h
      obtain ⟨ss, h1, h2⟩ := ih w0 (acc ++ [s]) h
      exact ⟨s :: ss, by simp [h1], SummariesOf.cons c cs w w0 w1 s ss hc h2⟩

/-- What a run of step 7 in which every call returns adds to the trace. -/
theorem summariesOf_events {σ : Type} (env : Env σ) (cs : List (List String))
    (w w1 : World σ) (ss : List String) (h : SummariesOf env cs w ss w1) :
    ∃ evs, w1.trace = w.trace ++ evs ∧ ss.length = cs.length ∧
      summarizerCalls evs = cs.map Event.summarizeChunk ∧ chunkCalls evs = cs ∧
      aggregateCalls evs = [] ∧ delivered evs = [] ∧ failedCompletions evs = [] := by
  induction h with
  | nil w => exact ⟨[], by simp, rfl, rfl, rfl, rfl, rfl, rfl⟩
  | cons c cs w w1 w2 s ss h1 _ ih =>
    obtain ⟨evs, e1, e2, e3, e4, e5, e6, e7⟩ := ih
    have ht := summarizeChunk_trace env c w
    rw [h1] at ht
    simp only [thrownOf] at ht
    refine ⟨[.summarizeChunk c, .completion "gpt-4o" systemContent (chunkPrompt c) none]
      ++ evs, ?_, ?_, ?_, ?_, ?_, ?_, ?_⟩
    · rw [e1, ht, List.append_assoc]
    · simp [e2]
    · rw [summarizerCalls_append, e3]; simp [summarizerCalls, Event.isSummarizerCall]
    · rw [chunkCalls_append, e4]; simp [chunkCalls, Event.chunkArg]
    · rw [aggregateCalls_append, e5]; simp [aggregateCalls, Event.aggregateArg]
    · rw [delivered_append, e6]; simp [delivered, Event.deliveredText]
    · rw [failedCompletions_append, e7]; simp [failedCompletions, Event.thrownDetail]

/-- What step 7 adds to the trace, whether it ends normally or not. -/
theorem summarizeEach_events {σ : Type} (env : Env σ) (cs : List (List String))
    (acc : List String) (w : World σ) :
    ∃ evs, (summarizeEach env cs acc w).2.trace = w.trace ++ evs ∧
      delivered evs = [] ∧ aggregateCalls evs = [] ∧
      (∀ out, (summarizeEach env cs acc w).1 = .ok out → failedCompletions evs = []) := by
  induction cs generalizing acc w with
  | nil => exact ⟨[], by simp [summarizeEach], rfl, rfl, fun _ _ => rfl⟩
  | cons c cs ih =>
    have ht := summarizeChunk_trace env c w
    rcases hc : summarizeChunk env c w with ⟨r, w0⟩
    rw [hc] at ht
    cases r with
    | error e =>
      refine ⟨_, by simpa [summarizeEach, hc] using ht, ?_, ?_, ?_⟩
      · simp [delivered, Event.deliveredText]
      · simp [aggregateCalls, Event.aggregateArg]
      · intro out hout
        simp [summarizeEach, hc] at hout
    | ok s =>
      obtain ⟨evs, e1, e2, e3, e4⟩ := ih (acc ++ [s]) w0
      simp only [thrownOf] at ht
      refine ⟨[.summarizeChunk c, .completion "gpt-4o" systemContent (chunkPrompt c) none]
        ++ evs, ?_, ?_, ?_, ?_⟩
      · simp only [summarizeEach, hc]
        rw [e1, ht, List.append_assoc]
      · rw [delivered_append, e2]; simp [delivered, Event.deliveredText]
      · rw [aggregateCalls_append, e3]; simp [aggregateCalls, Event.aggregateArg]
      · intro out hout
        simp only [summarizeEach, hc] at hout
        rw [failedCompletions_append, e4 out hout]
        simp [failedCompletions, Event.thrownDetail]

/-- What step 8 adds to the trace, whether it ends normally or not. -/
theorem finalSummary_events {σ : Type} (env : Env σ) (sums : List String) (w : World σ) :
    ∃ evs, (finalSummary env sums w).2.trace = w.trace ++ evs ∧
      delivered evs = [] ∧ chunkCalls evs = [] ∧
      (∀ t, (finalSummary env sums w).1 = .ok t → failedCompletions evs = []) := by
  unfold finalSummary
  split
  · exact ⟨[], by simp, rfl, rfl, fun _ _ => rfl⟩
  · have ht := summarizeChunkSummaries_trace env sums w
    refine ⟨_, ht, ?_, ?_, ?_⟩
    · simp [delivered, Event.deliveredText]
    · simp [chunkCalls, Event.chunkArg]
    · intro t h
      rw [h]
      simp [failedCompletions, Event.thrownDetail, thrownOf]

/-- The source text of the aggregate prompt and the wording of the
specification give the same string. -/
theorem combinedText_eq_labelled (ss : List String) :
    combinedText ss = labelledSummaries ss := by
  unfold combinedText labelledSummaries
  congr 1
  apply List.ext_getElem
  · simp
  · intro n h1 h2
    simp only [List.length_mapIdx] at h1
    simp [List.getElem?_eq_getElem h1]

/-! ## Theorems on the chunker -/

/-- C1 (partition): concatenating the chunks returned by `chunkMessages lines`,
in order, gives back exactly `lines`, and the chunk lengths sum to the number of
lines. -/
theorem chunkMessages_partition (lines : List String) :
    (chunkMessages lines).flatten = lines ∧
      ((chunkMessages lines).map List.length).sum = lines.length := by
  have h : (chunkMessages lines).flatten = lines := by
    rw [chunkMessages_eq_run, chunkRun_flatten]
    simp
  refine ⟨h, ?_⟩
  have h2 := congrArg List.length h
  rw [List.length_flatten] at h2
  simpa using h2

/-- C2, evaluated on the code: a single line whose size (6001) exceeds the budget
gives two chunks, the first of them empty. -/
theorem chunkMessages_longLine_empty_chunk :
    chunkMessages [longLine] = [[], [longLine]] ∧
      ([] : List String) ∈ chunkMessages [longLine] ∧
      MAX_CHARS_PER_CHUNK < longLine.length + 1 ∧ MAX_CHARS_PER_CHUNK < lineSize longLine := by
  have h : MAX_CHARS_PER_CHUNK < lineSize longLine := by
    rw [lineSize_longLine]; decide
  have e := chunkMessages_single_oversized longLine h
  refine ⟨e, by rw [e]; simp, ?_, h⟩
  simp only [longLine, String.length, List.length_replicate, MAX_CHARS_PER_CHUNK]
  decide

/-- C3 (budget): every chunk of `chunkMessages lines` has serialized size at most
`MAX_CHARS_PER_CHUNK`, unless it consists of exactly one line whose own size
exceeds `MAX_CHARS_PER_CHUNK`. -/
theorem chunkMessages_budget (lines : List String) (c : List String)
    (hc : c ∈ chunkMessages lines) :
    chunkSize c ≤ MAX_CHARS_PER_CHUNK ∨
      ∃ l, c = [l] ∧ MAX_CHARS_PER_CHUNK < lineSize l := by
  have h : BudgetInv (lines.foldl chunkStep ⟨[], [], 0⟩) :=
    budgetInv_foldl lines _
      ⟨by simp, by simp [LengthInv, chunkSize], Or.inl (by simp [chunkSize])⟩
  rcases mem_chunkFinish _ c hc with h1 | h1
  · exact h.1 c h1
  · rw [h1]; exact h.2.2

/-- C3 at the input `["a", "b"]`, whose single chunk is `["a", "b"]`. -/
theorem chunkMessages_budget_witness :
    ["a", "b"] ∈ chunkMessages ["a", "b"] ∧
      (chunkSize ["a", "b"] ≤ MAX_CHARS_PER_CHUNK ∨
        ∃ l, ["a", "b"] = [l] ∧ MAX_CHARS_PER_CHUNK < lineSize l) :=
  ⟨by decide, chunkMessages_budget ["a", "b"] ["a", "b"] (by decide)⟩

/-- C4 (oversized line): when the line at position `i` has size greater than
`MAX_CHARS_PER_CHUNK`, the chunks are `pre ++ [[lines[i]]] ++ post` where `pre`
holds exactly the lines before position `i` and `post` exactly the lines after
it: the line sits alone in its chunk, whole. -/
theorem chunkMessages_oversized (lines : List String) (i : Nat) (hi : i < lines.length)
    (hbig : MAX_CHARS_PER_CHUNK < lineSize lines[i]) :
    ∃ pre post, chunkMessages lines = pre ++ [lines[i]] :: post ∧
      pre.flatten = lines.take i ∧ post.flatten = lines.drop (i + 1) := by
  have hsplit : lines = lines.take i ++ lines[i] :: lines.drop (i + 1) := by
    rw [← List.drop_eq_getElem_cons hi, List.take_append_drop]
  obtain ⟨post, hpost, hflat⟩ := chunkRun_oversized lines[i] (lines.drop (i + 1)) hbig
  refine ⟨((lines.take i).foldl chunkStep ⟨[], [], 0⟩).chunks
      ++ [((lines.take i).foldl chunkStep ⟨[], [], 0⟩).currentChunk], post, ?_, ?_, hflat⟩
  · conv_lhs => rw [hsplit]
    rw [chunkMessages_eq_run, chunkRun_append, chunkRun_cons,
      chunkStep_close _ lines[i] (by omega), chunkRun_chunks]
    simp only [hpost]
  · have := foldl_chunkStep_flatten (lines.take i) ⟨[], [], 0⟩
    simpa using this

/-- C4 at the input `["a", longLine, "b"]` and position 1. -/
theorem chunkMessages_oversized_witness :
    MAX_CHARS_PER_CHUNK < lineSize ["a", longLine, "b"][1] ∧
      ∃ pre post, chunkMessages ["a", longLine, "b"]
          = pre ++ [["a", longLine, "b"][1]] :: post ∧
        pre.flatten = ["a", longLine, "b"].take 1 ∧
        post.flatten = ["a", longLine, "b"].drop (1 + 1) :=
  ⟨by simp [lineSize_longLine, MAX_CHARS_PER_CHUNK],
    chunkMessages_oversized ["a", longLine, "b"] 1 (by simp)
      (by simp [lineSize_longLine, MAX_CHARS_PER_CHUNK])⟩

/-- C10, as stated, fails on the code: for the single line `longLine` the chunks
are `[[], [longLine]]`, and the second chunk is not the longest prefix of the
remaining lines that fits the budget, since it does not fit the budget. -/
theorem chunkMessages_oversized_not_longest_fitting :
    chunkMessages [longLine] = [[]] ++ [longLine] :: [] ∧
      ¬ LongestFitting [longLine]
          ([longLine].drop ([[]] : List (List String)).flatten.length) := by
  have hbig : MAX_CHARS_PER_CHUNK < lineSize longLine := by
    rw [lineSize_longLine]; decide
  refine ⟨chunkMessages_single_oversized longLine hbig, ?_⟩
  intro hl
  have hfit := hl.2.1
  rw [chunkSize_cons] at hfit
  omega

/-- C10, amended (greedy boundaries): let `c` be a chunk of `chunkMessages lines`,
`pre` the chunks before it and `post` the chunks after it. If a chunk `d` follows
`c`, then `d` has a first line and the serialized size of `c` plus the size of
that line exceeds `MAX_CHARS_PER_CHUNK`. If the size of `c` is at most
`MAX_CHARS_PER_CHUNK`, then `c` is the longest prefix that fits the budget of the
remaining lines, the lines of the input after those of `pre`. Otherwise `c` is a
single line whose own size exceeds `MAX_CHARS_PER_CHUNK`. -/
theorem chunkMessages_greedy_longest (lines : List String) (pre post : List (List String))
    (c : List String) (h : chunkMessages lines = pre ++ c :: post) :
    (∀ d post2, post = d :: post2 →
        ∃ m rest, d = m :: rest ∧ MAX_CHARS_PER_CHUNK < chunkSize c + lineSize m) ∧
      (chunkSize c ≤ MAX_CHARS_PER_CHUNK →
        LongestFitting c (lines.drop pre.flatten.length)) ∧
      (MAX_CHARS_PER_CHUNK < chunkSize c →
        ∃ l, c = [l] ∧ MAX_CHARS_PER_CHUNK < lineSize l) := by
  have hch := chunkMessages_chain lines
  rw [h] at hch
  have hnext : ∀ d post2, post = d :: post2 →
      ∃ m rest, d = m :: rest ∧ MAX_CHARS_PER_CHUNK < chunkSize c + lineSize m := by
    intro d post2 hp
    rw [hp] at hch
    exact (List.chain'_cons.mp (List.chain'_append.mp hch).2.1).1
  have hflat : pre.flatten ++ (c ++ post.flatten) = lines := by
    have hf := chunkMessages_flatten lines
    rw [h] at hf
    simpa using hf
  have hdrop : lines.drop pre.flatten.length = c ++ post.flatten := by
    rw [← hflat]
    simp
  refine ⟨hnext, ?_, ?_⟩
  · intro hfit
    rw [hdrop]
    refine ⟨by simp, hfit, ?_⟩
    intro k hk1 hk2
    cases post with
    | nil =>
      simp only [List.flatten_nil, List.append_nil] at hk2
      omega
    | cons d post2 =>
      obtain ⟨m, rest, hd, hlt⟩ := hnext d post2 rfl
      obtain ⟨j, hj⟩ : ∃ j, k = c.length + (j + 1) := ⟨k - c.length - 1, by omega⟩
      rw [hj, List.take_append, chunkSize_append, hd]
      simp only [List.flatten_cons, List.cons_append, List.take_succ_cons, chunkSize_cons]
      omega
  · intro hbig
    have hw := chunkMessages_withinBudget lines c (by rw [h]; simp)
    rcases hw with h1 | h1
    · omega
    · exact h1

/-- C10, amended, at the input `["a", "b", longLine]`, whose chunks are
`[["a", "b"], [longLine]]`: the chunk `["a", "b"]` took the line "b" by the
append branch, is followed by `[longLine]`, and is within the budget. -/
theorem chunkMessages_greedy_longest_witness :
    chunkMessages ["a", "b", longLine] = [] ++ ["a", "b"] :: [[longLine]] ∧
      chunkSize ["a", "b"] ≤ MAX_CHARS_PER_CHUNK ∧
      (∃ m rest, [longLine] = m :: rest ∧
        MAX_CHARS_PER_CHUNK < chunkSize ["a", "b"] + lineSize m) ∧
      LongestFitting ["a", "b"]
        (["a", "b", longLine].drop ([] : List (List String)).flatten.length) :=
  ⟨chunkMessages_short_short_long, by decide,
    (chunkMessages_greedy_longest ["a", "b", longLine] [] [[longLine]] ["a", "b"]
      chunkMessages_short_short_long).1 [longLine] [] rfl,
    (chunkMessages_greedy_longest ["a", "b", longLine] [] [[longLine]] ["a", "b"]
      chunkMessages_short_short_long).2.1 (by decide)⟩

/-! ## Theorems on the orchestrator -/

/-- C5, evaluated on the code: on an empty list of lines, with a service that
answers "S", `handleSummarize` invokes `summarizeChunkSummaries` once, on the
empty list, and ends normally having delivered the answer "S" like any other
summary, where the claim has it end with a nothing-to-summarize outcome without
invoking either summarizer, and the comment of step 8 reserves the call for
several chunks. -/
theorem handleSummarize_empty_invokes_aggregate :
    aggregateCalls (handleSummarize (constEnv "S") [] ⟨0, []⟩).2.trace = [[]] ∧
      delivered (handleSummarize (constEnv "S") [] ⟨0, []⟩).2.trace = ["S"] ∧
      (handleSummarize (constEnv "S") [] ⟨0, []⟩).1 = .ok () := by
  refine ⟨by decide, by decide, rfl⟩

/-- C6 (single-chunk shortcut): when `chunkMessages lines` is the single chunk
`c` and `summarizeChunk c` returns `s`, `handleSummarize` hands exactly `s` to
`replyToContext`; `s` is the first text delivered, anything delivered after it is
`s` again or the failure message of the `catch` handler, `summarizeChunk` is
invoked once and `summarizeChunkSummaries` zero times. -/
theorem handleSummarize_single_chunk {σ : Type} (env : Env σ) (lines : List String)
    (w w1 : World σ) (c : List String) (s : String)
    (hc : chunkMessages lines = [c]) (hs : summarizeChunk env c w = (.ok s, w1)) :
    handleSummarize env lines w = catchReport env (replyToContext env s w1) ∧
      (∃ rest, delivered (handleSummarize env lines w).2.trace
          = delivered w.trace ++ s :: rest ∧ ∀ x ∈ rest, x = s ∨ x = errorReply) ∧
      aggregateCalls (handleSummarize env lines w).2.trace = aggregateCalls w.trace ∧
      chunkCalls (handleSummarize env lines w).2.trace = chunkCalls w.trace ++ [c] := by
  have heq : handleSummarize env lines w = catchReport env (replyToContext env s w1) := by
    simp [handleSummarize, summarizeAndReply, hc, summarizeEach, hs, finalSummary]
  have ht := summarizeChunk_trace env c w
  rw [hs] at ht
  simp only [thrownOf] at ht
  obtain ⟨evs, rest, g1, g2, g3, _, g5, g6, _⟩ := catchReport_reply_events env s w1
  rw [heq, g1, ht]
  refine ⟨rfl, ⟨rest, ?_, g3⟩, ?_, ?_⟩
  · rw [delivered_append, delivered_append, g2]
    simp [delivered, Event.deliveredText]
  · rw [aggregateCalls_append, aggregateCalls_append, g6]
    simp [aggregateCalls, Event.aggregateArg]
  · rw [chunkCalls_append, chunkCalls_append, g5]
    simp [chunkCalls, Event.chunkArg]

/-- C6 at the input `["a"]` with a service that answers "S". -/
theorem handleSummarize_single_chunk_witness :
    chunkMessages ["a"] = [["a"]] ∧
      handleSummarize (constEnv "S") ["a"] ⟨0, []⟩
        = catchReport (constEnv "S")
            (replyToContext (constEnv "S") "S" (summarizeChunk (constEnv "S") ["a"] ⟨0, []⟩).2) ∧
      (∃ rest, delivered (handleSummarize (constEnv "S") ["a"] ⟨0, []⟩).2.trace
          = delivered [] ++ "S" :: rest ∧ ∀ x ∈ rest, x = "S" ∨ x = errorReply) ∧
      aggregateCalls (handleSummarize (constEnv "S") ["a"] ⟨0, []⟩).2.trace
        = aggregateCalls [] ∧
      chunkCalls (handleSummarize (constEnv "S") ["a"] ⟨0, []⟩).2.trace
        = chunkCalls [] ++ [["a"]] :=
  ⟨by decide,
    handleSummarize_single_chunk (constEnv "S") ["a"] ⟨0, []⟩
      (summarizeChunk (constEnv "S") ["a"] ⟨0, []⟩).2 ["a"] "S" (by decide) rfl⟩

/-- C7 (no partial report): if, during `handleSummarize`, a completion request
fails (a request of `summarizeChunk` or of `summarizeChunkSummaries`), then the
texts handed to the reply sink during the run are the failure message
"Sorry, I ran into an error." and nothing else: at least once, and the same
literal whatever the detail thrown. -/
theorem handleSummarize_failure_generic {σ : Type} (env : Env σ) (lines : List String)
    (w : World σ) (evs : List Event)
    (hev : (handleSummarize env lines w).2.trace = w.trace ++ evs)
    (hfail : failedCompletions evs ≠ []) :
    delivered evs ≠ [] ∧ (∀ t ∈ delivered evs, t = "Sorry, I ran into an error.") ∧
      ∃ k, delivered evs = List.replicate (k + 1) errorReply := by
  have key : ∃ rest, delivered evs = errorReply :: rest ∧ ∀ x ∈ rest, x = errorReply := by
    obtain ⟨evs1, a1, a2, _, a4⟩ := summarizeEach_events env (chunkMessages lines) [] w
    rcases hr : summarizeEach env (chunkMessages lines) [] w with ⟨r, w1⟩
    rw [hr] at a1 a4
    have a1b : w1.trace = w.trace ++ evs1 := a1
    cases r with
    | error e =>
      obtain ⟨evsC, rest, g1, g2, g3, _⟩ := catchReport_error_events env e w1
      simp only [handleSummarize, summarizeAndReply, hr, g1, a1b, List.append_assoc] at hev
      have := List.append_cancel_left hev
      subst this
      exact ⟨rest, by simp [a2, g2], g3⟩
    | ok sums =>
      have af := a4 sums rfl
      obtain ⟨evs2, b1, b2, _, b4⟩ := finalSummary_events env sums w1
      rcases hr2 : finalSummary env sums w1 with ⟨r2, w2⟩
      rw [hr2] at b1 b4
      have b1b : w2.trace = w1.trace ++ evs2 := b1
      cases r2 with
      | error e =>
        obtain ⟨evsC, rest, g1, g2, g3, _⟩ := catchReport_error_events env e w2
        simp only [handleSummarize, summarizeAndReply, hr, hr2, g1, b1b, a1b,
          List.append_assoc] at hev
        have := List.append_cancel_left hev
        subst this
        exact ⟨rest, by simp [a2, b2, g2], g3⟩
      | ok t =>
        have bf := b4 t rfl
        obtain ⟨evsC, rest, g1, _, _, _, _, _, g7⟩ := catchReport_reply_events env t w2
        simp only [handleSummarize, summarizeAndReply, hr, hr2, g1, b1b, a1b,
          List.append_assoc] at hev
        have := List.append_cancel_left hev
        subst this
        exact absurd (by simp [af, bf, g7]) hfail
  obtain ⟨rest, k1, k2⟩ := key
  refine ⟨by simp [k1], ?_, rest.length, ?_⟩
  · intro t ht
    rw [k1] at ht
    rcases List.mem_cons.mp ht with h | h
    · exact h
    · exact k2 t h
  · rw [k1, List.replicate_succ, List.eq_replicate_of_mem k2]
    simp

/-- C7 at the input `["a"]` with a service whose first request throws "boom". -/
theorem handleSummarize_failure_generic_witness :
    failedCompletions [Event.summarizeChunk ["a"],
        Event.completion "gpt-4o" systemContent (chunkPrompt ["a"]) (some "boom"),
        Event.consoleError "boom", Event.editReply errorReply] ≠ [] ∧
      delivered [Event.summarizeChunk ["a"],
        Event.completion "gpt-4o" systemContent (chunkPrompt ["a"]) (some "boom"),
        Event.consoleError "boom", Event.editReply errorReply] ≠ [] ∧
      (∀ t ∈ delivered [Event.summarizeChunk ["a"],
        Event.completion "gpt-4o" systemContent (chunkPrompt ["a"]) (some "boom"),
        Event.consoleError "boom", Event.editReply errorReply],
          t = "Sorry, I ran into an error.") ∧
      ∃ k, delivered [Event.summarizeChunk ["a"],
        Event.completion "gpt-4o" systemContent (chunkPrompt ["a"]) (some "boom"),
        Event.consoleError "boom", Event.editReply errorReply]
          = List.replicate (k + 1) errorReply :=
  ⟨by decide,
    handleSummarize_failure_generic (failingEnv 0 "S" "boom") ["a"] ⟨0, []⟩
      [Event.summarizeChunk ["a"],
        Event.completion "gpt-4o" systemContent (chunkPrompt ["a"]) (some "boom"),
        Event.consoleError "boom", Event.editReply errorReply] rfl (by decide)⟩

/-- C8 (aggregate prompt): the text `summarizeChunkSummaries` embeds in its
prompt is, for i = 1..n in the order of the list, "Chunk i summary:" and a line
break followed by the i-th summary, joined by blank lines; the two summaries
"S1", "S2" give "Chunk 1 summary:\nS1\n\nChunk 2 summary:\nS2"; and the one
completion request of `summarizeChunkSummaries` carries that text between the
fixed header and the closing line of the template. -/
theorem summarizeChunkSummaries_prompt {σ : Type} (env : Env σ) (summaries : List String)
    (w : World σ) :
    combinedText summaries = labelledSummaries summaries ∧
      combinedText ["S1", "S2"] = "Chunk 1 summary:\nS1\n\nChunk 2 summary:\nS2" ∧
      ∃ thrown, (summarizeChunkSummaries env summaries w).2.trace
        = w.trace ++ [Event.summarizeChunkSummaries summaries,
            Event.completion "gpt-4o" systemContent
              (aggregateHeader ++ labelledSummaries summaries ++ "\n  ") thrown] := by
  refine ⟨combinedText_eq_labelled summaries, by decide, ?_⟩
  refine ⟨thrownOf (summarizeChunkSummaries env summaries w).1, ?_⟩
  rw [summarizeChunkSummaries_trace, aggregatePrompt, combinedText_eq_labelled]

/-- C9 (pipeline order): when `chunkMessages lines` has more than one chunk, every
call of `summarizeChunk` returns, the values being `sums` in chunk order, and
`summarizeChunkSummaries sums` returns `fin`, then the summarizer calls of
`handleSummarize` are one `summarizeChunk` per chunk, in chunk order, followed by
one `summarizeChunkSummaries` on `sums`; `fin` is what is handed to
`replyToContext`, it is the first text delivered, and anything delivered after it
is `fin` again or the failure message of the `catch` handler. -/
theorem handleSummarize_pipeline_order {σ : Type} (env : Env σ) (lines : List String)
    (w w1 w2 : World σ) (sums : List String) (fin : String)
    (hn : 1 < (chunkMessages lines).length)
    (hs : SummariesOf env (chunkMessages lines) w sums w1)
    (ha : summarizeChunkSummaries env sums w1 = (.ok fin, w2)) :
    handleSummarize env lines w = catchReport env (replyToContext env fin w2) ∧
      sums.length = (chunkMessages lines).length ∧
      summarizerCalls (handleSummarize env lines w).2.trace
        = summarizerCalls w.trace ++ (chunkMessages lines).map Event.summarizeChunk
            ++ [Event.summarizeChunkSummaries sums] ∧
      ∃ rest, delivered (handleSummarize env lines w).2.trace
          = delivered w.trace ++ fin :: rest ∧ ∀ x ∈ rest, x = fin ∨ x = errorReply := by
  obtain ⟨evs1, e1, e2, e3, _, _, e6, _⟩ := summariesOf_events env _ w w1 sums hs
  have hlen : ¬ sums.length = 1 := by omega
  have hfin : finalSummary env sums w1 = (.ok fin, w2) := by
    unfold finalSummary
    rw [dif_neg hlen, ha]
  have heq : handleSummarize env lines w = catchReport env (replyToContext env fin w2) := by
    simp only [handleSummarize, summarizeAndReply, summariesOf_each env _ w w1 sums hs [],
      List.nil_append, hfin]
  have ht := summarizeChunkSummaries_trace env sums w1
  rw [ha] at ht
  have ht2 : w2.trace = w1.trace ++ [Event.summarizeChunkSummaries sums,
      Event.completion "gpt-4o" systemContent (aggregatePrompt sums) none] := ht
  obtain ⟨evs, rest, g1, g2, g3, g4, _⟩ := catchReport_reply_events env fin w2
  rw [heq, g1, ht2, e1]
  refine ⟨rfl, e2, ?_, rest, ?_, g3⟩
  · simp only [summarizerCalls_append, e3, g4]
    simp [summarizerCalls, Event.isSummarizerCall]
  · simp only [delivered_append, e6, g2]
    simp [delivered, Event.deliveredText]

/-- C9 at the input `[longLine]`, two chunks, with a service that answers "S". -/
theorem handleSummarize_pipeline_order_witness :
    1 < (chunkMessages [longLine]).length ∧
      SummariesOf (constEnv "S") (chunkMessages [longLine]) ⟨0, []⟩ ["S", "S"]
        pipelineWorld1 ∧
      handleSummarize (constEnv "S") [longLine] ⟨0, []⟩
        = catchReport (constEnv "S") (replyToContext (constEnv "S") "S" pipelineWorld2) ∧
      ["S", "S"].length = (chunkMessages [longLine]).length ∧
      summarizerCalls (handleSummarize (constEnv "S") [longLine] ⟨0, []⟩).2.trace
        = summarizerCalls [] ++ (chunkMessages [longLine]).map Event.summarizeChunk
            ++ [Event.summarizeChunkSummaries ["S", "S"]] ∧
      ∃ rest, delivered (handleSummarize (constEnv "S") [longLine] ⟨0, []⟩).2.trace
          = delivered [] ++ "S" :: rest ∧ ∀ x ∈ rest, x = "S" ∨ x = errorReply :=
  have hbig : MAX_CHARS_PER_CHUNK < lineSize longLine := by
    rw [lineSize_longLine]; decide
  have hchunks : chunkMessages [longLine] = [[], [longLine]] :=
    chunkMessages_single_oversized longLine hbig
  have hs : SummariesOf (constEnv "S") (chunkMessages [longLine]) ⟨0, []⟩ ["S", "S"]
      pipelineWorld1 := by
    rw [hchunks]
    exact SummariesOf.cons [] [[longLine]] ⟨0, []⟩
      (summarizeChunk (constEnv "S") [] ⟨0, []⟩).2 pipelineWorld1 "S" ["S"] rfl
      (SummariesOf.cons [longLine] [] _ pipelineWorld1 pipelineWorld1 "S" [] rfl
        (SummariesOf.nil _))
  ⟨by rw [hchunks]; decide, hs,
    handleSummarize_pipeline_order (constEnv "S") [longLine] ⟨0, []⟩ pipelineWorld1
      pipelineWorld2 ["S", "S"] "S" (by rw [hchunks]; decide) hs rfl⟩

end TldrBot
